import Mathlib

/-!
Shallow embedding of copulapy (src/copulamnsig.py): the grid partitioner,
the theoretical and empirical multinomial-signature builders, and the
divergence-based family selector, together with proofs of the behavioural
claims about them.

Real numbers of the Python source are modelled by exact rationals; the
machine epsilon np.finfo(float).eps = np.spacing(1) = 2^(-52) is the exact
rational 1/2^52.  External collaborators (cvolume, the probability integral
transform, the Kendall tau estimator, scipy entropy, invcopulastat) are
parameters of the embedding; fallible paths return Except or Option.
-/

namespace Copulapy

/-- Rows-of-rationals model of a numpy [M x N] matrix. -/
abbrev Mat := List (List ℚ)

/-- np.finfo(float).eps = np.spacing(1) = 2^(-52), as an exact rational. -/
def eps : ℚ := 1 / 2 ^ 52

/-- np.linspace a b num: num equally spaced points from a to b inclusive
(numpy semantics for num = 0 and num = 1 included). -/
def linspace (a b : ℚ) (num : ℕ) : List ℚ :=
  if num = 1 then [a]
  else (List.range num).map (fun i : ℕ => a + (b - a) * i / ((num - 1 : ℕ) : ℚ))

/-- One grid cell of _makeCoordsList: the four corner points
[u1v1, u1v2, u2v1, u2v2], each a point (u, v) of the unit square. -/
structure Cell where
  u1v1 : ℚ × ℚ
  u1v2 : ℚ × ℚ
  u2v1 : ℚ × ℚ
  u2v2 : ℚ × ℚ
deriving DecidableEq, Repr, Inhabited

/-- The body of _makeCoordsList, parameterised by the number of break
points num = K+1 handed to np.linspace: the nested loop
for ii in range(len(u)-1): for jj in range(len(v)-1) collecting the cells. -/
def coordsFromBreaks (num : ℕ) : List Cell :=
  let u := linspace (0 + eps) (1 - eps) num
  let v := linspace (0 + eps) (1 - eps) num
  (List.range (u.length - 1)).flatMap (fun ii =>
    (List.range (v.length - 1)).map (fun jj =>
      { u1v1 := (u.getD ii 0, v.getD jj 0)
        u1v2 := (u.getD ii 0, v.getD (jj + 1) 0)
        u2v1 := (u.getD (ii + 1) 0, v.getD jj 0)
        u2v2 := (u.getD (ii + 1) 0, v.getD (jj + 1) 0) }))

/-- _makeCoordsList(K).  np.linspace raises ValueError when its sample
count K+1 is negative; every other K returns the cell list built from the
K+1 break points (for K = 0 and K = -1 the loops are empty and the result
is the empty list, with no error raised). -/
def _makeCoordsList (K : ℤ) : Except String (List Cell) :=
  if K + 1 < 0 then
    .error "ValueError: Number of samples must be non-negative."
  else
    .ok (coordsFromBreaks (K + 1).toNat)

/-- The i-th break point eps + i * (1 - 2*eps) / K of the K+1-point
linspace over [eps, 1-eps] (the value of linspace for num = K+1 >= 2). -/
def breakPt (K i : ℕ) : ℚ := eps + (1 - 2 * eps) * i / K

/-- The zero-replacement applied to the empirical signature vector
(a numpy array): empirical_mnsig[empirical_mnsig==0] = np.spacing(1)
replaces exactly the zero entries. -/
def npEpsSub (v : List ℚ) : List ℚ :=
  v.map (fun x => if x = 0 then eps else x)

/-- The zero-replacement the source applies to a theoretical signature
vector: mnsig[mnsig==0] = np.spacing(1) where mnsig is a Python list, not
a numpy array.  In Python 2 the comparison list == 0 evaluates to False,
and False used as a list index is 0, so the statement overwrites entry 0
with np.spacing(1) unconditionally and touches no other entry. -/
def listEpsSub (v : List ℚ) : List ℚ :=
  v.set 0 eps

/-- The external C-volume primitive: family name, one cell (its four
corner points), and the dependency specification (kind, scalar value). -/
abbrev CVol := String → Cell → String → ℚ → ℚ

/-- copulamnsig family K args: the external C-volume primitive evaluated
over every cell of the K x K grid, the per-cell masses val[0] collected in
cell order. -/
def copulamnsig (cvol : CVol) (family : String) (K : ℕ)
    (depKind : String) (depValue : ℚ) : List ℚ :=
  (coordsFromBreaks (K + 1)).map (fun coord => cvol family coord depKind depValue)

/-- U[ii, dim] of a rows-list matrix (default 0 outside range; the source
only reads in-range entries when the transform preserves the shape). -/
def uvVal (U : Mat) (ii dim : ℕ) : ℚ := (U.getD ii []).getD dim 0

/-- The half-open membership test of the inner loop of
empirical_copulamnsig: u1 <= u < u2 and v1 <= v < v2, with u1, v1 read
from corner u1v1 and u2, v2 from corner u2v2. -/
def cellMatch (c : Cell) (u v : ℚ) : Bool :=
  decide (c.u1v1.1 ≤ u) && decide (u < c.u2v2.1) &&
    decide (c.u1v1.2 ≤ v) && decide (v < c.u2v2.2)

/-- The first cell index the sample (u, v) falls into: the
for jj in range(0, K*K) scan with break on first match. -/
def firstMatchIdx (coords : List Cell) (u v : ℚ) : Option ℕ :=
  coords.findIdx? (fun c => cellMatch c u v)

/-- Processing of one row ii of the per-pair loop: add 1/M to the first
cell the sample (u ii, v ii) falls into; a row matching no cell leaves
esig_vec unchanged. -/
def binRowStep (coords : List Cell) (Mq : ℚ) (u v : ℕ → ℚ)
    (esig_vec : List ℚ) (ii : ℕ) : List ℚ :=
  match firstMatchIdx coords (u ii) (v ii) with
  | some jj => esig_vec.set jj (esig_vec.getD jj 0 + 1 / Mq)
  | none => esig_vec

/-- The per-pair accumulation: esig_vec starts as np.zeros(K*K) and the
rows ii = 0 .. M-1 are processed in order. -/
def binRows (coords : List Cell) (Mq : ℚ) (u v : ℕ → ℚ) (M : ℕ) : List ℚ :=
  (List.range M).foldl (binRowStep coords Mq u v) (List.replicate coords.length 0)

/-- One per-pair record of the empirical signature: the 1-based column
identifiers and the length-K*K empirical probability vector. -/
structure PairSig where
  rv1 : ℕ
  rv2 : ℕ
  esig : List ℚ
deriving DecidableEq, Repr

/-- empirical_copulamnsig X K, parameterised by the external probability
integral transform pit: for every column pair dim1 < dim2 of U = pit X,
bin the M rows into the K x K grid. -/
def empirical_copulamnsig (pit : Mat → Mat) (X : Mat) (K : ℕ) : List PairSig :=
  let M := X.length
  let N := (X.headD []).length
  let U := pit X
  let coords := coordsFromBreaks (K + 1)
  (List.range (N - 1)).flatMap (fun dim1 =>
    (List.range' (dim1 + 1) (N - (dim1 + 1))).map (fun dim2 =>
      { rv1 := dim1 + 1
        rv2 := dim2 + 1
        esig := binRows coords (M : ℚ) (fun ii => uvVal U ii dim1)
          (fun ii => uvVal U ii dim2) M }))

/-- Divergence values extended with np.inf, modelled by none; ltInf is
the float comparison d < minDistance (inf < inf is false). -/
def ltInf : Option ℚ → Option ℚ → Bool
  | some a, some b => decide (a < b)
  | some _, none => true
  | none, _ => false

/-- Python dict assignment distances[family] = v: overwrite the value if
the key is present, else add a new binding. -/
def dictInsert (d : List (String × Option ℚ)) (k : String) (v : Option ℚ) :
    List (String × Option ℚ) :=
  match d with
  | [] => [(k, v)]
  | (k0, v0) :: rest =>
    if k0 = k then (k0, v) :: rest else (k0, v0) :: dictInsert rest k v

/-- ASCII lowercase of one character (kernel-reducible model of the
character mapping done by str.lower()). -/
def charLower (c : Char) : Char :=
  if 65 ≤ c.toNat ∧ c.toNat ≤ 90 then Char.ofNat (c.toNat + 32) else c

/-- family.lower(): ASCII lowercase of a family identifier. -/
def strLower (s : String) : String := ⟨s.data.map charLower⟩

/-- External collaborators consumed by optimalCopulaFamily. -/
structure Externals where
  kendalls_tau : Mat → ℚ
  pit : Mat → Mat
  cvol : CVol
  entropy : List ℚ → List ℚ → ℚ
  invcopulastat : String → String → ℚ → ℚ

/-- One iteration of the per-family loop of optimalCopulaFamily.  The
state carries tau_hat (which the Clayton/Gumbel clamping branches
reassign in place, so the new value is seen by every later iteration and
by the code after the loop) and the distances dict.  A Clayton or Gumbel
candidate with tau_hat < -0.05 records np.inf and continues without
building a signature. -/
def ocfStep (ext : Externals) (empirical_mnsig : List ℚ) (K : ℕ)
    (st : ℚ × List (String × Option ℚ)) (family : String) :
    ℚ × List (String × Option ℚ) :=
  let tau_hat := st.1
  let distances := st.2
  if strLower family = "clayton" then
    if tau_hat < -(5 / 100) then (tau_hat, dictInsert distances family none)
    else
      let tau_hat :=
        if -(5 / 100) ≤ tau_hat ∧ tau_hat < 0 then 0
        else if 1 ≤ tau_hat then 1 - eps
        else tau_hat
      let mnsig := listEpsSub (copulamnsig ext.cvol family K "kendall" tau_hat)
      (tau_hat,
        dictInsert distances family (some (ext.entropy mnsig empirical_mnsig)))
  else if strLower family = "gumbel" then
    if tau_hat < -(5 / 100) then (tau_hat, dictInsert distances family none)
    else
      let tau_hat :=
        if -(5 / 100) ≤ tau_hat ∧ tau_hat < 0 then 0
        else if 1 ≤ tau_hat then 1 - eps
        else tau_hat
      let mnsig := listEpsSub (copulamnsig ext.cvol family K "kendall" tau_hat)
      (tau_hat,
        dictInsert distances family (some (ext.entropy mnsig empirical_mnsig)))
  else
    let mnsig := listEpsSub (copulamnsig ext.cvol family K "kendall" tau_hat)
    (tau_hat,
      dictInsert distances family (some (ext.entropy mnsig empirical_mnsig)))

/-- The whole per-family loop: fold ocfStep over family_search starting
from the empirical tau_hat and an empty distances dict. -/
def ocfLoop (ext : Externals) (empirical_mnsig : List ℚ) (K : ℕ)
    (tau0 : ℚ) (family_search : List String) : ℚ × List (String × Option ℚ) :=
  family_search.foldl (ocfStep ext empirical_mnsig K) (tau0, [])

/-- One iteration of the minimum search: if distance < minDistance then
optimalFamily and minDistance are rebound, else the pair is skipped. -/
def minStep (acc : Option String × Option ℚ) (fd : String × Option ℚ) :
    Option String × Option ℚ :=
  if ltInf fd.2 acc.2 then (some fd.1, fd.2) else acc

/-- The minimum-distance search: minDistance starts at np.inf and
optimalFamily starts unbound.  First component none models the NameError
raised downstream when optimalFamily was never assigned. -/
def minSearch (items : List (String × Option ℚ)) : Option String × Option ℚ :=
  items.foldl minStep (none, none)

/-- optimalCopulaFamily.  order models the iteration order of
distances.iteritems(): a Python 2 dict iterates its items in hash-table
order, some enumeration of the stored bindings unrelated to insertion
order.  Result none models the exceptions the source can raise: the
IndexError of empirical_mnsig[0] when no column pair exists, and the
NameError on optimalFamily when no candidate ever beat np.inf. -/
def optimalCopulaFamily (ext : Externals)
    (order : List (String × Option ℚ) → List (String × Option ℚ))
    (X : Mat) (K : ℕ) (family_search : List String) :
    Option (String × ℚ × ℚ) :=
  match empirical_copulamnsig ext.pit X K with
  | [] => none
  | rec0 :: _ =>
    let empirical_mnsig := npEpsSub rec0.esig
    let st := ocfLoop ext empirical_mnsig K (ext.kendalls_tau X) family_search
    match minSearch (order st.2) with
    | (none, _) => none
    | (some optimalFamily, _) =>
      some (optimalFamily, ext.invcopulastat optimalFamily "kendall" st.1, st.1)

/-- The cell of the K x K grid whose horizontal corners are break points
i, i+1 and whose vertical corners are break points j, j+1. -/
def cellAt (K i j : ℕ) : Cell :=
  { u1v1 := (breakPt K i, breakPt K j)
    u1v2 := (breakPt K i, breakPt K (j + 1))
    u2v1 := (breakPt K (i + 1), breakPt K j)
    u2v2 := (breakPt K (i + 1), breakPt K (j + 1)) }

/-- Constant C-volume primitive for the closed examples: every cell gets
mass 1. -/
def cvolOne : CVol := fun _ _ _ _ => 1

/-- Concrete external collaborators for the closed examples: constant
Kendall tau t, identity transform, constant entropy dval, and a parameter
inversion that returns the tau it is given. -/
def extOfTau (t dval : ℚ) : Externals :=
  { kendalls_tau := fun _ => t
    pit := id
    cvol := cvolOne
    entropy := fun _ _ => dval
    invcopulastat := fun _ _ tau => tau }

lemma eps_pos : 0 < eps := by norm_num [eps]

lemma two_eps_lt_one : 2 * eps < 1 := by norm_num [eps]

lemma linspace_length (a b : ℚ) (num : ℕ) : (linspace a b num).length = num := by
  unfold linspace
  split
  · simp [*]
  · rw [List.length_map, List.length_range]

lemma linspace_getD (a b : ℚ) (num i : ℕ) (h2 : 2 ≤ num) (hi : i < num) :
    (linspace a b num).getD i 0 = a + (b - a) * i / (num - 1 : ℕ) := by
  unfold linspace
  rw [if_neg (by omega), List.getD_eq_getElem?_getD,
    List.getElem?_eq_getElem (by rw [List.length_map, List.length_range]; exact hi)]
  simp

lemma breaks_getD (K i : ℕ) (hK : 1 ≤ K) (hi : i < K + 1) :
    (linspace (0 + eps) (1 - eps) (K + 1)).getD i 0 = breakPt K i := by
  rw [linspace_getD _ _ _ _ (by omega) hi]
  unfold breakPt
  simp only [Nat.add_sub_cancel]
  ring

lemma coordsFromBreaks_eq (K : ℕ) (hK : 1 ≤ K) :
    coordsFromBreaks (K + 1) =
      (List.range K).flatMap (fun i => (List.range K).map (cellAt K i)) := by
  unfold coordsFromBreaks
  simp only [linspace_length, Nat.add_sub_cancel]
  refine List.flatMap_congr (fun i hi => List.map_congr_left (fun j hj => ?_))
  rw [List.mem_range] at hi hj
  rw [breaks_getD K i hK (by omega), breaks_getD K (i + 1) hK (by omega),
    breaks_getD K j hK (by omega), breaks_getD K (j + 1) hK (by omega)]
  rfl

lemma flatMap_map_getD {α : Type} (d : α) (g : ℕ → ℕ → α) :
    ∀ (L : List ℕ) (m i j : ℕ), i < L.length → j < m →
      (L.flatMap (fun a => (List.range m).map (g a))).getD (i * m + j) d
        = g (L.getD i 0) j := by
  intro L
  induction L with
  | nil => intro m i j hi _; simp at hi
  | cons a L ih =>
    intro m i j hi hj
    rw [List.flatMap_cons, List.getD_eq_getElem?_getD]
    cases i with
    | zero =>
      rw [List.getElem?_append_left (by simpa using hj)]
      simp [hj]
    | succ i =>
      rw [List.getElem?_append_right (by simp; nlinarith)]
      have harith : (i + 1) * m + j - ((List.range m).map (g a)).length
          = i * m + j := by simp; ring_nf; omega
      rw [harith, ← List.getD_eq_getElem?_getD]
      exact ih m i j (by simpa using hi) hj

lemma coords_length (K : ℕ) (hK : 1 ≤ K) :
    (coordsFromBreaks (K + 1)).length = K * K := by
  rw [coordsFromBreaks_eq K hK, List.length_flatMap]
  simp [Function.comp_def, List.map_const', List.sum_const_nat]

lemma coords_getD (K i j : ℕ) (hK : 1 ≤ K) (hi : i < K) (hj : j < K) :
    (coordsFromBreaks (K + 1)).getD (i * K + j) default = cellAt K i j := by
  rw [coordsFromBreaks_eq K hK,
    flatMap_map_getD default (cellAt K) (List.range K) K i j (by simpa using hi) hj]
  congr 1
  rw [List.getD_eq_getElem?_getD]
  simp [hi]

lemma coords_mem (K : ℕ) (hK : 1 ≤ K) {c : Cell}
    (hc : c ∈ coordsFromBreaks (K + 1)) : ∃ i < K, ∃ j < K, c = cellAt K i j := by
  rw [coordsFromBreaks_eq K hK] at hc
  simp only [List.mem_flatMap, List.mem_map, List.mem_range] at hc
  obtain ⟨i, hi, j, hj, rfl⟩ := hc
  exact ⟨i, hi, j, hj, rfl⟩

lemma breakPt_lt (K : ℕ) (hK : 1 ≤ K) {i j : ℕ} (hij : i < j) :
    breakPt K i < breakPt K j := by
  unfold breakPt
  have hKq : (0 : ℚ) < K := by exact_mod_cast hK
  have h2 : (0 : ℚ) < 1 - 2 * eps := by norm_num [eps]
  have hij' : (i : ℚ) < j := by exact_mod_cast hij
  apply add_lt_add_left
  rw [div_lt_div_iff₀ hKq hKq]
  nlinarith [mul_lt_mul_of_pos_right hij' (mul_pos h2 hKq)]

lemma breakPt_pos (K i : ℕ) : 0 < breakPt K i := by
  unfold breakPt
  have h2 : (0 : ℚ) ≤ 1 - 2 * eps := by norm_num [eps]
  have : (0 : ℚ) ≤ (1 - 2 * eps) * i / K :=
    div_nonneg (mul_nonneg h2 (Nat.cast_nonneg i)) (Nat.cast_nonneg K)
  have := eps_pos
  linarith

lemma breakPt_last (K : ℕ) (hK : 1 ≤ K) : breakPt K K = 1 - eps := by
  unfold breakPt
  have hKq : (K : ℚ) ≠ 0 := by
    have : (0 : ℚ) < K := by exact_mod_cast hK
    exact ne_of_gt this
  field_simp
  ring

lemma breakPt_le_last (K i : ℕ) (hK : 1 ≤ K) (hi : i ≤ K) :
    breakPt K i ≤ 1 - eps := by
  rcases eq_or_lt_of_le hi with h | h
  · rw [h, breakPt_last K hK]
  · exact le_of_lt (breakPt_last K hK ▸ breakPt_lt K hK h)

lemma breakPt_lt_one (K i : ℕ) (hK : 1 ≤ K) (hi : i ≤ K) : breakPt K i < 1 := by
  have := breakPt_le_last K i hK hi
  have := eps_pos
  linarith

/-- C5: for every K >= 1 the grid partitioner returns (without error)
exactly K*K cells; every corner coordinate is strictly inside (0, 1)
(break points equally spaced on [0+eps, 1-eps]); each cell has u1 < u2 and
v1 < v2; and the cells appear in column-major order: the cell at list
position i*K + j (outer horizontal index i, inner vertical index j) takes
its corners from break points i, i+1 horizontally and j, j+1 vertically,
so position 0 (cell number 1) is the bottom-left cell and positions
advance upward within a column, then rightward. -/
theorem makeCoordsList_partition (K : ℕ) (hK : 1 ≤ K) :
    _makeCoordsList (K : ℤ) = Except.ok (coordsFromBreaks (K + 1)) ∧
    (coordsFromBreaks (K + 1)).length = K * K ∧
    (∀ i, i < K → ∀ j, j < K →
      (coordsFromBreaks (K + 1)).getD (i * K + j) default = cellAt K i j) ∧
    (∀ c ∈ coordsFromBreaks (K + 1),
      (0 < c.u1v1.1 ∧ c.u1v1.1 < 1) ∧ (0 < c.u1v1.2 ∧ c.u1v1.2 < 1) ∧
      (0 < c.u1v2.1 ∧ c.u1v2.1 < 1) ∧ (0 < c.u1v2.2 ∧ c.u1v2.2 < 1) ∧
      (0 < c.u2v1.1 ∧ c.u2v1.1 < 1) ∧ (0 < c.u2v1.2 ∧ c.u2v1.2 < 1) ∧
      (0 < c.u2v2.1 ∧ c.u2v2.1 < 1) ∧ (0 < c.u2v2.2 ∧ c.u2v2.2 < 1) ∧
      c.u1v1.1 < c.u2v2.1 ∧ c.u1v1.2 < c.u2v2.2) := by
  refine ⟨?_, coords_length K hK, fun i hi j hj => coords_getD K i j hK hi hj, ?_⟩
  · unfold _makeCoordsList
    rw [if_neg (by omega)]
    congr 1
  · intro c hc
    obtain ⟨i, hi, j, hj, rfl⟩ := coords_mem K hK hc
    have hb : ∀ t, t ≤ K → 0 < breakPt K t ∧ breakPt K t < 1 := fun t ht =>
      ⟨breakPt_pos K t, breakPt_lt_one K t hK ht⟩
    refine ⟨hb i (by omega), hb j (by omega), hb i (by omega), hb (j + 1) (by omega),
      hb (i + 1) (by omega), hb j (by omega), hb (i + 1) (by omega), hb (j + 1) (by omega),
      breakPt_lt K hK (by omega), breakPt_lt K hK (by omega)⟩

/-- C5 witness: the partition theorem instantiated at K = 2. -/
theorem makeCoordsList_partition_at_two :
    (coordsFromBreaks (2 + 1)).length = 2 * 2 ∧
    (coordsFromBreaks (2 + 1)).getD (1 * 2 + 0) default = cellAt 2 1 0 :=
  ⟨(makeCoordsList_partition 2 (by norm_num)).2.1,
    (makeCoordsList_partition 2 (by norm_num)).2.2.1 1 (by norm_num) 0 (by norm_num)⟩

/-- C2 (code bug, failing input): on the theoretical signature vector
[1/2, 0, 1/2] the substitution of the source (a Python list indexed by
list == 0, i.e. by False = 0) overwrites the non-zero first entry with
machine epsilon and leaves the true zero at position 1 unchanged, instead
of replacing exactly the zero entries as the comment above it and the
spec describe. -/
theorem listEpsSub_is_not_zero_substitution :
    listEpsSub [1 / 2, 0, 1 / 2] = [eps, 0, 1 / 2] ∧
    List.map (fun x => if x = 0 then eps else x) [1 / 2, 0, 1 / 2]
      = [1 / 2, eps, 1 / 2] ∧
    listEpsSub [1 / 2, 0, 1 / 2]
      ≠ List.map (fun x => if x = 0 then eps else x) [1 / 2, 0, 1 / 2] := by
  have h1 : List.map (fun x => if x = 0 then eps else x) [1 / 2, 0, 1 / 2]
      = [1 / 2, eps, 1 / 2] := by norm_num
  have h0 : listEpsSub [1 / 2, 0, 1 / 2] = [eps, 0, 1 / 2] := rfl
  refine ⟨h0, h1, ?_⟩
  rw [h0, h1]
  norm_num [eps]

/-- C8 counterexample: the resolutions K = 0 and K = -1, both < 1, are
not rejected: _makeCoordsList returns the empty cell list without error. -/
theorem makeCoordsList_accepts_nonpositive :
    _makeCoordsList 0 = Except.ok [] ∧ _makeCoordsList (-1) = Except.ok [] := by
  constructor <;> rfl

/-- C8 (amended): _makeCoordsList errors exactly for K <= -2 (negative
np.linspace sample count); K = -1 and K = 0 return the empty cell list
without error; every K >= 1 returns the K*K cells without error. -/
theorem makeCoordsList_error_policy (K : ℤ) :
    (K ≤ -2 → _makeCoordsList K =
      Except.error "ValueError: Number of samples must be non-negative.") ∧
    ((K = -1 ∨ K = 0) → _makeCoordsList K = Except.ok []) ∧
    (1 ≤ K → _makeCoordsList K = Except.ok (coordsFromBreaks (K + 1).toNat) ∧
      (coordsFromBreaks (K + 1).toNat).length = K.toNat * K.toNat) := by
  refine ⟨fun h => ?_, fun h => ?_, fun h => ⟨?_, ?_⟩⟩
  · unfold _makeCoordsList
    rw [if_pos (by omega)]
  · rcases h with rfl | rfl <;> rfl
  · unfold _makeCoordsList
    rw [if_neg (by omega)]
  · have hk : (K + 1).toNat = K.toNat + 1 := by omega
    rw [hk]
    exact coords_length K.toNat (by omega)

/-- C8 witness: the amended error policy instantiated at K = 5. -/
theorem makeCoordsList_error_policy_at_five :
    _makeCoordsList 5 = Except.ok (coordsFromBreaks ((5 : ℤ) + 1).toNat) ∧
    (coordsFromBreaks ((5 : ℤ) + 1).toNat).length = (5 : ℤ).toNat * (5 : ℤ).toNat :=
  (makeCoordsList_error_policy 5).2.2 (by norm_num)

/-- C9 counterexample: a 2 x 1 sample matrix (fewer than 2 columns) is not
rejected: empirical_copulamnsig returns the empty record list as a normal
result (the external transform instantiated with the identity). -/
theorem empirical_accepts_single_column :
    empirical_copulamnsig id [[5], [7]] 4 = [] := rfl

/-- C9 (amended): for every sample matrix with fewer than 2 columns the
empirical estimator raises nothing and returns the empty list of pair
records, for any external transform and any K. -/
theorem empirical_no_column_pairs (pit : Mat → Mat) (X : Mat) (K : ℕ)
    (hN : (X.headD []).length < 2) :
    empirical_copulamnsig pit X K = [] := by
  unfold empirical_copulamnsig
  simp only [List.headD_eq_head?_getD] at hN
  simp
  intro x hx
  omega

/-- C9 witness: the amended statement at a concrete 3 x 1 matrix. -/
theorem empirical_no_column_pairs_at_col :
    empirical_copulamnsig id [[3], [4], [5]] 2 = [] :=
  empirical_no_column_pairs id [[3], [4], [5]] 2 (by decide)

lemma firstMatchIdx_lt_length {coords : List Cell} {u v : ℚ} {jj : ℕ}
    (h : firstMatchIdx coords u v = some jj) : jj < coords.length := by
  unfold firstMatchIdx at h
  rcases List.findIdx?_eq_some_iff_getElem.mp h with ⟨hlt, _, _⟩
  exact hlt

lemma getD_set_ne (l : List ℚ) (i j : ℕ) (x : ℚ) (h : ¬i = j) :
    (l.set i x).getD j 0 = l.getD j 0 := by
  rw [List.getD_eq_getElem?_getD, List.getElem?_set, if_neg h,
    ← List.getD_eq_getElem?_getD]

lemma getD_set_eq (l : List ℚ) (i : ℕ) (x : ℚ) (h : i < l.length) :
    (l.set i x).getD i 0 = x := by
  rw [List.getD_eq_getElem?_getD, List.getElem?_set, if_pos rfl, if_pos h]
  rfl

lemma sum_set_getD (l : List ℚ) (i : ℕ) (x : ℚ) (h : i < l.length) :
    (l.set i x).sum = l.sum - l.getD i 0 + x := by
  induction l generalizing i with
  | nil => simp at h
  | cons a l ih =>
    cases i with
    | zero => simp [List.set]; ring
    | succ i =>
      have h' : i < l.length := by simpa using h
      simp [List.set, ih i h']
      ring

lemma binRowStep_length (coords : List Cell) (Mq : ℚ) (u v : ℕ → ℚ)
    (vec : List ℚ) (ii : ℕ) :
    (binRowStep coords Mq u v vec ii).length = vec.length := by
  unfold binRowStep
  cases h : firstMatchIdx coords (u ii) (v ii) <;> simp

lemma binRowStep_getD (coords : List Cell) (Mq : ℚ) (u v : ℕ → ℚ)
    (vec : List ℚ) (ii jj : ℕ) (hlen : coords.length ≤ vec.length) :
    (binRowStep coords Mq u v vec ii).getD jj 0
      = vec.getD jj 0
        + (if firstMatchIdx coords (u ii) (v ii) = some jj then 1 / Mq else 0) := by
  unfold binRowStep
  cases h : firstMatchIdx coords (u ii) (v ii) with
  | none => simp
  | some j0 =>
    rcases eq_or_ne j0 jj with rfl | hne
    · rw [getD_set_eq _ _ _ (lt_of_lt_of_le (firstMatchIdx_lt_length h) hlen)]
      simp
    · rw [getD_set_ne _ _ _ _ hne]
      simp [hne]

lemma binRowStep_sum (coords : List Cell) (Mq : ℚ) (u v : ℕ → ℚ)
    (vec : List ℚ) (ii : ℕ) (hlen : coords.length ≤ vec.length) :
    (binRowStep coords Mq u v vec ii).sum
      = vec.sum
        + (if (firstMatchIdx coords (u ii) (v ii)).isSome then 1 / Mq else 0) := by
  unfold binRowStep
  cases h : firstMatchIdx coords (u ii) (v ii) with
  | none => simp
  | some j0 =>
    rw [sum_set_getD _ _ _ (lt_of_lt_of_le (firstMatchIdx_lt_length h) hlen)]
    simp
    ring

lemma binFold_length (coords : List Cell) (Mq : ℚ) (u v : ℕ → ℚ)
    (rows : List ℕ) (vec : List ℚ) :
    (rows.foldl (binRowStep coords Mq u v) vec).length = vec.length := by
  induction rows generalizing vec with
  | nil => rfl
  | cons r rs ih => rw [List.foldl_cons, ih, binRowStep_length]

lemma binFold_getD (coords : List Cell) (Mq : ℚ) (u v : ℕ → ℚ)
    (rows : List ℕ) (vec : List ℚ) (hlen : coords.length ≤ vec.length) (jj : ℕ) :
    (rows.foldl (binRowStep coords Mq u v) vec).getD jj 0
      = vec.getD jj 0
        + (rows.countP
            (fun ii => firstMatchIdx coords (u ii) (v ii) == some jj)) * (1 / Mq) := by
  induction rows generalizing vec with
  | nil => simp
  | cons r rs ih =>
    rw [List.foldl_cons, List.countP_cons,
      ih _ (hlen.trans (binRowStep_length coords Mq u v vec r).ge),
      binRowStep_getD _ _ _ _ _ _ _ hlen]
    by_cases hc : firstMatchIdx coords (u r) (v r) = some jj
    · simp [hc]
      ring
    · simp [hc]

lemma binFold_sum (coords : List Cell) (Mq : ℚ) (u v : ℕ → ℚ)
    (rows : List ℕ) (vec : List ℚ) (hlen : coords.length ≤ vec.length) :
    (rows.foldl (binRowStep coords Mq u v) vec).sum
      = vec.sum
        + (rows.countP
            (fun ii => (firstMatchIdx coords (u ii) (v ii)).isSome)) * (1 / Mq) := by
  induction rows generalizing vec with
  | nil => simp
  | cons r rs ih =>
    rw [List.foldl_cons, List.countP_cons,
      ih _ (hlen.trans (binRowStep_length coords Mq u v vec r).ge),
      binRowStep_sum _ _ _ _ _ _ hlen]
    by_cases hc : (firstMatchIdx coords (u r) (v r)).isSome
    · simp [hc]
      ring
    · simp [hc]

/-- Closed counting form of binRows: entry jj is (number of rows whose
first matching cell is jj) / M. -/
lemma binRows_getD (coords : List Cell) (Mq : ℚ) (u v : ℕ → ℚ) (M jj : ℕ) :
    (binRows coords Mq u v M).getD jj 0
      = ((List.range M).countP
          (fun ii => firstMatchIdx coords (u ii) (v ii) == some jj)) * (1 / Mq) := by
  unfold binRows
  rw [binFold_getD _ _ _ _ _ _ (by simp) jj]
  simp

lemma binRows_length (coords : List Cell) (Mq : ℚ) (u v : ℕ → ℚ) (M : ℕ) :
    (binRows coords Mq u v M).length = coords.length := by
  unfold binRows
  rw [binFold_length]
  simp

lemma binRows_sum (coords : List Cell) (Mq : ℚ) (u v : ℕ → ℚ) (M : ℕ) :
    (binRows coords Mq u v M).sum
      = ((List.range M).countP
          (fun ii => (firstMatchIdx coords (u ii) (v ii)).isSome)) * (1 / Mq) := by
  unfold binRows
  rw [binFold_sum _ _ _ _ _ _ (by simp)]
  simp

/-- A coordinate at or beyond the last break point 1-eps matches no cell
of the grid. -/
lemma firstMatch_none_of_ge_last (K : ℕ) (hK : 1 ≤ K) {u v : ℚ}
    (h : 1 - eps ≤ u ∨ 1 - eps ≤ v) :
    firstMatchIdx (coordsFromBreaks (K + 1)) u v = none := by
  unfold firstMatchIdx
  rw [List.findIdx?_eq_none_iff]
  intro c hc
  obtain ⟨i, hi, j, hj, rfl⟩ := coords_mem K hK hc
  rw [Bool.eq_false_iff]
  intro hmatch
  simp only [cellMatch, cellAt, Bool.and_eq_true, decide_eq_true_eq] at hmatch
  obtain ⟨⟨⟨h1, h2⟩, h3⟩, h4⟩ := hmatch
  have hu2 : breakPt K (i + 1) ≤ 1 - eps := breakPt_le_last K (i + 1) hK (by omega)
  have hv2 : breakPt K (j + 1) ≤ 1 - eps := breakPt_le_last K (j + 1) hK (by omega)
  rcases h with h | h <;> linarith

/-- Every coordinate in [eps, 1-eps) lies in some break interval
[p_i, p_i+1) with i < K. -/
lemma exists_break_interval (K : ℕ) (hK : 1 ≤ K) {x : ℚ}
    (h1 : eps ≤ x) (h2 : x < 1 - eps) :
    ∃ i < K, breakPt K i ≤ x ∧ x < breakPt K (i + 1) := by
  have hKq : (0 : ℚ) < K := by exact_mod_cast hK
  have he : (0 : ℚ) < 1 - 2 * eps := by norm_num [eps]
  set t : ℚ := (x - eps) * K / (1 - 2 * eps) with hts
  have ht0 : 0 ≤ t :=
    div_nonneg (mul_nonneg (by linarith) (le_of_lt hKq)) (le_of_lt he)
  have htK : t < K := by
    rw [hts, div_lt_iff₀ he]
    nlinarith
  have hfl : (⌊t⌋₊ : ℚ) ≤ t := Nat.floor_le ht0
  have hfl1 : t < ⌊t⌋₊ + 1 := Nat.lt_floor_add_one t
  refine ⟨⌊t⌋₊, (Nat.floor_lt ht0).mpr htK, ?_, ?_⟩
  · unfold breakPt
    have hd : (1 - 2 * eps) * (⌊t⌋₊ : ℚ) / K ≤ x - eps := by
      rw [div_le_iff₀ hKq]
      have h3 : (⌊t⌋₊ : ℚ) * (1 - 2 * eps) ≤ t * (1 - 2 * eps) := by nlinarith
      have h4 : t * (1 - 2 * eps) = (x - eps) * K := by
        rw [hts]
        field_simp
      nlinarith
    linarith
  · unfold breakPt
    have hd : x - eps < (1 - 2 * eps) * ((⌊t⌋₊ : ℚ) + 1) / K := by
      rw [lt_div_iff₀ hKq]
      have h3 : t * (1 - 2 * eps) < ((⌊t⌋₊ : ℚ) + 1) * (1 - 2 * eps) := by nlinarith
      have h4 : t * (1 - 2 * eps) = (x - eps) * K := by
        rw [hts]
        field_simp
      nlinarith
    push_cast
    linarith

lemma cellAt_mem (K i j : ℕ) (hK : 1 ≤ K) (hi : i < K) (hj : j < K) :
    cellAt K i j ∈ coordsFromBreaks (K + 1) := by
  rw [coordsFromBreaks_eq K hK]
  simp only [List.mem_flatMap, List.mem_map, List.mem_range]
  exact ⟨i, hi, ⟨j, hj, rfl⟩⟩

/-- Every sample with both coordinates in [eps, 1-eps) falls in some cell
of the grid, so the first-match scan succeeds. -/
lemma firstMatch_isSome (K : ℕ) (hK : 1 ≤ K) {u v : ℚ}
    (hu1 : eps ≤ u) (hu2 : u < 1 - eps) (hv1 : eps ≤ v) (hv2 : v < 1 - eps) :
    (firstMatchIdx (coordsFromBreaks (K + 1)) u v).isSome := by
  obtain ⟨i, hi, hui, hui2⟩ := exists_break_interval K hK hu1 hu2
  obtain ⟨j, hj, hvj, hvj2⟩ := exists_break_interval K hK hv1 hv2
  have hmem := cellAt_mem K i j hK hi hj
  have hmatch : cellMatch (cellAt K i j) u v = true := by
    simp only [cellMatch, cellAt, Bool.and_eq_true, decide_eq_true_eq]
    exact ⟨⟨⟨hui, hui2⟩, hvj⟩, hvj2⟩
  unfold firstMatchIdx
  rw [List.findIdx?_eq_some_of_exists ⟨_, hmem, hmatch⟩]
  rfl

/-- Decomposition of a member of the empirical record list: its column
pair and its vector. -/
lemma empirical_mem (pit : Mat → Mat) (X : Mat) (K : ℕ) {ps : PairSig}
    (h : ps ∈ empirical_copulamnsig pit X K) :
    ∃ d1 d2 : ℕ, d1 < d2 ∧ d2 < (X.headD []).length ∧
      ps = { rv1 := d1 + 1, rv2 := d2 + 1,
             esig := binRows (coordsFromBreaks (K + 1)) (X.length : ℚ)
               (fun ii => uvVal (pit X) ii d1)
               (fun ii => uvVal (pit X) ii d2) X.length } := by
  unfold empirical_copulamnsig at h
  simp only [List.mem_flatMap, List.mem_map, List.mem_range, List.mem_range'_1] at h
  obtain ⟨d1, hd1, d2, hd2, rfl⟩ := h
  exact ⟨d1, d2, by omega, by omega, rfl⟩

/-- Every entry of a binned vector is a count of rows divided by M, hence
a non-negative multiple of 1/M bounded by 1. -/
lemma binRows_entry_bounds (coords : List Cell) (u v : ℕ → ℚ) (M : ℕ)
    (hM : 1 ≤ M) {q : ℚ} (hq : q ∈ binRows coords (M : ℚ) u v M) :
    ∃ n : ℕ, n ≤ M ∧ q = n * (1 / (M : ℚ)) ∧ 0 ≤ q ∧ q ≤ 1 := by
  obtain ⟨jj, hjj, hget⟩ := List.mem_iff_getElem.mp hq
  have hgd : (binRows coords (M : ℚ) u v M).getD jj 0 = q := by
    rw [List.getD_eq_getElem?_getD, List.getElem?_eq_getElem hjj]
    simpa using hget
  rw [binRows_getD] at hgd
  set n := (List.range M).countP
    (fun ii => firstMatchIdx coords (u ii) (v ii) == some jj) with hn
  have hnM : n ≤ M := by
    have := List.countP_le_length
      (p := fun ii => firstMatchIdx coords (u ii) (v ii) == some jj)
      (l := List.range M)
    simpa [hn] using this
  have hM0 : (0 : ℚ) < M := by exact_mod_cast hM
  refine ⟨n, hnM, hgd.symm, ?_, ?_⟩
  · rw [← hgd]
    positivity
  · rw [← hgd]
    have hc : (n : ℚ) ≤ M := by exact_mod_cast hnM
    calc (n : ℚ) * (1 / M) ≤ M * (1 / M) :=
          mul_le_mul_of_nonneg_right hc (by positivity)
      _ = 1 := by field_simp

/-- C10: each sample row increments at most one grid cell: the first cell
in enumeration order whose half-open condition matches (the break of the
inner loop), captured by firstMatchIdx.  Hence every entry of every
per-pair vector is a non-negative integer multiple of 1/M, each per-pair
vector sums to at most 1, and a row whose transformed coordinate lies at
or beyond the last break point 1-eps matches no cell and contributes to
none. -/
theorem empirical_at_most_one_cell_per_row (pit : Mat → Mat) (X : Mat)
    (K : ℕ) (hK : 1 ≤ K) (hM : 1 ≤ X.length) :
    (∀ ps ∈ empirical_copulamnsig pit X K,
      (∀ q ∈ ps.esig, ∃ n : ℕ, n ≤ X.length ∧ q = n * (1 / (X.length : ℚ)) ∧ 0 ≤ q)
        ∧ ps.esig.sum ≤ 1) ∧
    (∀ u v : ℚ, 1 - eps ≤ u ∨ 1 - eps ≤ v →
      firstMatchIdx (coordsFromBreaks (K + 1)) u v = none) := by
  refine ⟨?_, fun u v h => firstMatch_none_of_ge_last K hK h⟩
  intro ps hps
  obtain ⟨d1, d2, hd, hdN, rfl⟩ := empirical_mem pit X K hps
  constructor
  · intro q hq
    obtain ⟨n, hn, hq1, hq2, _⟩ := binRows_entry_bounds _ _ _ _ hM hq
    exact ⟨n, hn, hq1, hq2⟩
  · show (binRows _ _ _ _ _).sum ≤ 1
    rw [binRows_sum]
    have hc : (List.range X.length).countP
        (fun ii => (firstMatchIdx (coordsFromBreaks (K + 1))
          (uvVal (pit X) ii d1) (uvVal (pit X) ii d2)).isSome) ≤ X.length := by
      have := List.countP_le_length
        (p := fun ii => (firstMatchIdx (coordsFromBreaks (K + 1))
          (uvVal (pit X) ii d1) (uvVal (pit X) ii d2)).isSome)
        (l := List.range X.length)
      simpa using this
    have hM0 : (0 : ℚ) < X.length := by exact_mod_cast hM
    have hcq : ((List.range X.length).countP
        (fun ii => (firstMatchIdx (coordsFromBreaks (K + 1))
          (uvVal (pit X) ii d1) (uvVal (pit X) ii d2)).isSome) : ℚ)
        ≤ X.length := by exact_mod_cast hc
    calc _ ≤ (X.length : ℚ) * (1 / X.length) :=
          mul_le_mul_of_nonneg_right hcq (by positivity)
      _ = 1 := by field_simp

/-- C10 witness: the no-cell-beyond-the-last-break-point part at
K = 1, u = 1, v = 0 (via the theorem at the 1 x 2 matrix [[1/2, 1/2]]). -/
theorem empirical_at_most_one_cell_per_row_witness :
    firstMatchIdx (coordsFromBreaks (1 + 1)) 1 0 = none :=
  (empirical_at_most_one_cell_per_row id [[1 / 2, 1 / 2]] 1 (by norm_num)
    (by norm_num)).2 1 0 (Or.inl (by norm_num [eps]))

/-- C3 (amended): for every matrix with M >= 1 rows and every K >= 1,
each per-pair vector of the empirical signature has entries in [0, 1] and
sums to at most 1; the sum equals exactly 1 when every transformed
coordinate lies in the half-open grid range [eps, 1-eps), each such row
contributing 1/M to exactly one cell.  (As stated, with coordinates only
known to lie strictly inside (0,1), the sum can fall short of 1: see the
counterexample, where a coordinate in [1-eps, 1) escapes every cell.) -/
theorem empirical_mass_conservation (pit : Mat → Mat) (X : Mat) (K : ℕ)
    (hK : 1 ≤ K) (hM : 1 ≤ X.length)
    (hU : ∀ ii, ii < X.length → ∀ d, d < (X.headD []).length →
      eps ≤ uvVal (pit X) ii d ∧ uvVal (pit X) ii d < 1 - eps) :
    ∀ ps ∈ empirical_copulamnsig pit X K,
      (∀ q ∈ ps.esig, 0 ≤ q ∧ q ≤ 1) ∧ ps.esig.sum = 1 := by
  intro ps hps
  obtain ⟨d1, d2, hd, hdN, rfl⟩ := empirical_mem pit X K hps
  constructor
  · intro q hq
    obtain ⟨n, _, _, hq2, hq3⟩ := binRows_entry_bounds _ _ _ _ hM hq
    exact ⟨hq2, hq3⟩
  · show (binRows _ _ _ _ _).sum = 1
    rw [binRows_sum]
    have hall : (List.range X.length).countP
        (fun ii => (firstMatchIdx (coordsFromBreaks (K + 1))
          (uvVal (pit X) ii d1) (uvVal (pit X) ii d2)).isSome)
        = (List.range X.length).length := by
      rw [List.countP_eq_length]
      intro ii hii
      rw [List.mem_range] at hii
      obtain ⟨hu1, hu2⟩ := hU ii hii d1 (lt_trans hd hdN)
      obtain ⟨hv1, hv2⟩ := hU ii hii d2 hdN
      exact firstMatch_isSome K hK hu1 hu2 hv1 hv2
    rw [hall]
    have hM0 : (0 : ℚ) < X.length := by exact_mod_cast hM
    simp
    field_simp

lemma coordsFromBreaks_two : coordsFromBreaks 2 = [cellAt 1 0 0] := by
  rw [coordsFromBreaks_eq 1 le_rfl]
  rfl

lemma copulamnsig_cvolOne (f dk : String) (dv : ℚ) :
    copulamnsig cvolOne f 1 dk dv = [1] := by
  unfold copulamnsig
  rw [coordsFromBreaks_two]
  rfl

/-- The empirical signature of the 1 x 2 matrix [[1/2, 1/2]] at K = 1:
its single row lands in the single cell. -/
lemma empirical_unit :
    empirical_copulamnsig id [[1 / 2, 1 / 2]] 1
      = [{ rv1 := 1, rv2 := 2, esig := [1] }] := by
  have hmatch : cellMatch (cellAt 1 0 0) 2⁻¹ 2⁻¹ = true := by
    simp only [cellMatch, cellAt, Bool.and_eq_true, decide_eq_true_eq]
    norm_num [breakPt, eps]
  have hfm : firstMatchIdx (coordsFromBreaks 2) 2⁻¹ 2⁻¹ = some 0 := by
    rw [coordsFromBreaks_two]
    unfold firstMatchIdx
    rw [List.findIdx?_cons]
    simp [hmatch]
  have hesig : binRows (coordsFromBreaks 2) 1
      (fun ii => uvVal [[2⁻¹, 2⁻¹]] ii 0)
      (fun ii => uvVal [[2⁻¹, 2⁻¹]] ii 1) 1 = [1] := by
    unfold binRows
    have h01 : List.range 1 = [0] := rfl
    rw [coords_length 1 le_rfl, h01, List.foldl_cons, List.foldl_nil]
    unfold binRowStep
    have hu : uvVal [[(2 : ℚ)⁻¹, 2⁻¹]] 0 0 = 2⁻¹ := rfl
    have hv : uvVal [[(2 : ℚ)⁻¹, 2⁻¹]] 0 1 = 2⁻¹ := rfl
    simp only [hu, hv, hfm]
    norm_num
  unfold empirical_copulamnsig
  simp only [List.length_cons, List.length_nil, List.headD_cons, id_eq]
  norm_num
  have h01 : List.range 1 = [0] := rfl
  simp [h01, List.flatMap_cons, List.flatMap_nil, List.range', hesig]

lemma npEpsSub_one : npEpsSub [1] = [1] := by norm_num [npEpsSub]

/-- C3 witness: mass conservation (amended form) evaluated at the 1 x 2
matrix [[1/2, 1/2]] with K = 1 and the identity transform: the single
per-pair vector [1] sums to 1. -/
theorem empirical_mass_conservation_witness :
    ({ rv1 := 1, rv2 := 2, esig := [1] } : PairSig).esig.sum = 1 :=
  (empirical_mass_conservation id [[1 / 2, 1 / 2]] 1 (by norm_num) (by norm_num)
    (by
      intro ii hii d hd
      simp only [List.length_cons, List.length_nil] at hii
      simp only [List.headD, List.length_cons, List.length_nil] at hd
      interval_cases ii
      interval_cases d <;> norm_num [uvVal, eps])
    { rv1 := 1, rv2 := 2, esig := [1] }
    (by
      rw [show empirical_copulamnsig id [[1 / 2, 1 / 2]] 1
          = [{ rv1 := 1, rv2 := 2, esig := [1] }] from empirical_unit]
      exact List.mem_singleton.mpr rfl)).2

/-- C3 counterexample: the 1 x 2 matrix [[1/2, 1-eps]] (external transform
taken as the identity) has every transformed entry strictly inside (0,1),
yet with K = 1 its per-pair vector is [0]: the v-coordinate 1-eps lies at
the last break point, the row falls in no cell, and the vector sums to 0
instead of 1. -/
theorem empirical_mass_not_conserved :
    empirical_copulamnsig id [[1 / 2, 1 - eps]] 1
      = [{ rv1 := 1, rv2 := 2, esig := [0] }] ∧
    (0 : ℚ) < 1 / 2 ∧ (1 : ℚ) / 2 < 1 ∧ (0 : ℚ) < 1 - eps ∧ 1 - eps < 1 ∧
    ¬(([0] : List ℚ).sum = 1) := by
  have hfm : firstMatchIdx (coordsFromBreaks 2) 2⁻¹ (1 - eps) = none :=
    firstMatch_none_of_ge_last 1 le_rfl (Or.inr le_rfl)
  have hlen : (coordsFromBreaks 2).length = 1 := coords_length 1 le_rfl
  have hesig : binRows (coordsFromBreaks 2) 1
      (fun ii => uvVal [[2⁻¹, 1 - eps]] ii 0)
      (fun ii => uvVal [[2⁻¹, 1 - eps]] ii 1) 1 = [0] := by
    unfold binRows
    have h01 : List.range 1 = [0] := rfl
    rw [hlen, h01, List.foldl_cons, List.foldl_nil]
    unfold binRowStep
    have hu : uvVal [[(2 : ℚ)⁻¹, 1 - eps]] 0 0 = 2⁻¹ := rfl
    have hv : uvVal [[(2 : ℚ)⁻¹, 1 - eps]] 0 1 = 1 - eps := rfl
    simp only [hu, hv, hfm]
    rfl
  refine ⟨?_, by norm_num, by norm_num, by norm_num [eps], by norm_num [eps],
    by norm_num⟩
  unfold empirical_copulamnsig
  simp only [List.length_cons, List.length_nil, List.headD_cons, id_eq]
  norm_num
  have h01 : List.range 1 = [0] := rfl
  simp [h01, List.flatMap_cons, List.flatMap_nil, List.range', hesig]

lemma ltInf_irrefl (a : Option ℚ) : ltInf a a = false := by
  cases a <;> simp [ltInf]

lemma ltInf_asymm {a b : Option ℚ} (h : ltInf a b = true) : ltInf b a = false := by
  cases a <;> cases b <;> simp_all [ltInf]
  linarith

lemma ltInf_trans {a b c : Option ℚ} (h1 : ltInf a b = true)
    (h2 : ltInf b c = true) : ltInf a c = true := by
  cases a <;> cases b <;> cases c <;> simp_all [ltInf]
  linarith

/-- a < b together with b <= c (that is, not c < b) gives a < c. -/
lemma ltInf_lt_of_lt_of_not_lt {a b c : Option ℚ} (h1 : ltInf a b = true)
    (h2 : ltInf c b = false) : ltInf a c = true := by
  cases a <;> cases b <;> cases c <;> simp_all [ltInf]
  linarith

lemma mem_dictInsert_self (d : List (String × Option ℚ)) (k : String)
    (v : Option ℚ) : (k, v) ∈ dictInsert d k v := by
  induction d with
  | nil => simp [dictInsert]
  | cons kv rest ih =>
    obtain ⟨k0, v0⟩ := kv
    unfold dictInsert
    by_cases h : k0 = k
    · subst h
      simp
    · simp [h, ih]

lemma mem_dictInsert_elim {d : List (String × Option ℚ)} {k k' : String}
    {v v' : Option ℚ} (h : (k', v') ∈ dictInsert d k v) :
    (k' = k ∧ v' = v) ∨ (k', v') ∈ d := by
  induction d with
  | nil =>
    simp [dictInsert] at h
    exact Or.inl h
  | cons kv rest ih =>
    obtain ⟨k0, v0⟩ := kv
    by_cases h0 : k0 = k
    · subst h0
      simp only [dictInsert, if_pos rfl] at h
      rcases List.mem_cons.mp h with h1 | h1
      · injection h1 with hk hv
        exact Or.inl ⟨hk, hv⟩
      · exact Or.inr (List.mem_cons_of_mem _ h1)
    · simp only [dictInsert, if_neg h0] at h
      rcases List.mem_cons.mp h with h1 | h1
      · exact Or.inr (List.mem_cons.mpr (Or.inl h1))
      · rcases ih h1 with h2 | h2
        · exact Or.inl h2
        · exact Or.inr (List.mem_cons_of_mem _ h2)

lemma mem_dictInsert_of_ne {d : List (String × Option ℚ)} {k k' : String}
    {v v' : Option ℚ} (h : (k', v') ∈ d) (hne : k' ≠ k) :
    (k', v') ∈ dictInsert d k v := by
  induction d with
  | nil => simp at h
  | cons kv rest ih =>
    obtain ⟨k0, v0⟩ := kv
    rcases List.mem_cons.mp h with h1 | h1
    · injection h1 with hk hv
      have hk0 : k0 ≠ k := by
        rw [← hk]
        exact hne
      simp only [dictInsert, if_neg hk0]
      subst hk
      subst hv
      exact List.mem_cons_self _ _
    · by_cases h0 : k0 = k
      · subst h0
        simp only [dictInsert, if_pos rfl]
        exact List.mem_cons_of_mem _ h1
      · simp only [dictInsert, if_neg h0]
        exact List.mem_cons_of_mem _ (ih h1)

lemma ocfStep_snd_shape (ext : Externals) (e : List ℚ) (K : ℕ)
    (st : ℚ × List (String × Option ℚ)) (f : String) :
    ∃ w, (ocfStep ext e K st f).2 = dictInsert st.2 f w := by
  simp only [ocfStep]
  split_ifs <;> exact ⟨_, rfl⟩

lemma ocfStep_fst_of_lt (ext : Externals) (e : List ℚ) (K : ℕ)
    (st : ℚ × List (String × Option ℚ)) (f : String) (ht : st.1 < -(5 / 100)) :
    (ocfStep ext e K st f).1 = st.1 := by
  simp only [ocfStep]
  split_ifs <;> rfl

lemma ocfStep_fst_zero (ext : Externals) (e : List ℚ) (K : ℕ)
    (st : ℚ × List (String × Option ℚ)) (f : String) (h : st.1 = 0) :
    (ocfStep ext e K st f).1 = 0 := by
  simp only [ocfStep]
  split_ifs <;> simp_all <;> linarith

/-- A Clayton or Gumbel candidate met with -0.05 <= tau_hat < 0 reassigns
tau_hat to 0 in the loop state. -/
lemma ocfStep_clamp (ext : Externals) (e : List ℚ) (K : ℕ)
    (st : ℚ × List (String × Option ℚ)) (f : String)
    (hf : strLower f = "clayton" ∨ strLower f = "gumbel")
    (h1 : -(5 / 100) ≤ st.1) (h2 : st.1 < 0) :
    (ocfStep ext e K st f).1 = 0 := by
  rcases hf with hf | hf <;>
    simp [ocfStep, hf, h1, h2, not_lt.mpr h1,
      if_neg (by linarith : ¬st.1 < -(5 / 100))]

/-- A Clayton or Gumbel candidate met with tau_hat < -0.05 only records
np.inf for the family: tau_hat is untouched and, the branch continuing
before any signature is built, the result does not depend on the C-volume
primitive or the entropy function at all. -/
lemma ocfStep_excluded (ext : Externals) (e : List ℚ) (K : ℕ)
    (st : ℚ × List (String × Option ℚ)) (f : String)
    (hf : strLower f = "clayton" ∨ strLower f = "gumbel")
    (ht : st.1 < -(5 / 100)) :
    ocfStep ext e K st f = (st.1, dictInsert st.2 f none) := by
  rcases hf with hf | hf <;> simp [ocfStep, hf, ht]

/-- Behaviour of the minimum-search fold: either no item ever beat the
starting accumulator (which is then returned unchanged), or the result is
one of the stored (family, finite distance) items; in both cases no
processed distance is strictly below the final accumulator distance. -/
lemma minFold_spec (items : List (String × Option ℚ)) :
    ∀ acc : Option String × Option ℚ,
      (items.foldl minStep acc = acc ∨
        ∃ g d, items.foldl minStep acc = (some g, some d) ∧ (g, some d) ∈ items ∧
          ltInf (some d) acc.2 = true) ∧
      ∀ fd ∈ items, ltInf fd.2 (items.foldl minStep acc).2 = false := by
  induction items with
  | nil =>
    intro acc
    exact ⟨Or.inl rfl, by simp⟩
  | cons fd0 fs ih =>
    obtain ⟨f0, dv0⟩ := fd0
    intro acc
    rw [List.foldl_cons]
    by_cases hlt : ltInf dv0 acc.2 = true
    · have hstep : minStep acc (f0, dv0) = (some f0, dv0) := by
        unfold minStep
        rw [if_pos hlt]
      rw [hstep]
      obtain ⟨ih1, ih2⟩ := ih (some f0, dv0)
      have hfd0 : ltInf dv0 (fs.foldl minStep (some f0, dv0)).2 = false := by
        rcases ih1 with heq | ⟨g, d, hF, _, hFlt⟩
        · rw [heq]
          exact ltInf_irrefl dv0
        · rw [hF]
          exact ltInf_asymm hFlt
      constructor
      · rcases ih1 with heq | ⟨g, d, hF, hmem, hFlt⟩
        · rcases h2 : dv0 with _ | d0
          · rw [h2] at hlt
            simp [ltInf] at hlt
          · right
            subst h2
            exact ⟨f0, d0, heq, List.mem_cons_self _ _, hlt⟩
        · exact Or.inr ⟨g, d, hF, List.mem_cons_of_mem _ hmem, ltInf_trans hFlt hlt⟩
      · intro x hx
        rcases List.mem_cons.mp hx with rfl | hx'
        · exact hfd0
        · exact ih2 x hx'
    · have hlt' : ltInf dv0 acc.2 = false := by
        cases hb : ltInf dv0 acc.2
        · rfl
        · exact absurd hb hlt
      have hstep : minStep acc (f0, dv0) = acc := by
        unfold minStep
        rw [if_neg hlt]
      rw [hstep]
      obtain ⟨ih1, ih2⟩ := ih acc
      have hfd0 : ltInf dv0 (fs.foldl minStep acc).2 = false := by
        rcases ih1 with heq | ⟨g, d, hF, _, hFlt⟩
        · rw [heq]
          exact hlt'
        · rw [hF]
          exact ltInf_asymm (ltInf_lt_of_lt_of_not_lt hFlt hlt')
      constructor
      · rcases ih1 with heq | ⟨g, d, hF, hmem, hFlt⟩
        · exact Or.inl heq
        · exact Or.inr ⟨g, d, hF, List.mem_cons_of_mem _ hmem, hFlt⟩
      · intro x hx
        rcases List.mem_cons.mp hx with rfl | hx'
        · exact hfd0
        · exact ih2 x hx'

/-- A successful minimum search returns one of the stored items, with a
finite distance no stored distance goes strictly below. -/
lemma minSearch_some {items : List (String × Option ℚ)} {g : String}
    {dd : Option ℚ} (h : minSearch items = (some g, dd)) :
    ∃ d, dd = some d ∧ (g, some d) ∈ items ∧
      ∀ fd ∈ items, ltInf fd.2 (some d) = false := by
  obtain ⟨h1, h2⟩ := minFold_spec items (none, none)
  unfold minSearch at h
  rcases h1 with heq | ⟨g', d, hF, hmem, _⟩
  · rw [heq] at h
    exact absurd (congrArg Prod.fst h) (by simp)
  · rw [hF] at h h2
    injection h with hg hd
    injection hg with hg
    subst hg
    exact ⟨d, hd.symm, hmem, h2⟩

/-- When every stored distance is np.inf the minimum search never rebinds
optimalFamily. -/
lemma minSearch_all_none (items : List (String × Option ℚ))
    (h : ∀ kv ∈ items, kv.2 = none) : minSearch items = (none, none) := by
  unfold minSearch
  induction items with
  | nil => rfl
  | cons kv ks ih =>
    rw [List.foldl_cons]
    have hk : kv.2 = none := h kv (List.mem_cons_self _ _)
    have hstep : minStep (none, none) kv = (none, none) := by
      unfold minStep
      rw [hk]
      simp [ltInf]
    rw [hstep]
    exact ih fun x hx => h x (List.mem_cons_of_mem _ hx)

/-- If every step keeps tau_hat equal to t then the whole loop does. -/
lemma ocfFold_fst_const (ext : Externals) (e : List ℚ) (K : ℕ) (t : ℚ)
    (fams : List String)
    (hstep : ∀ d f, (ocfStep ext e K (t, d) f).1 = t) :
    ∀ d, (fams.foldl (ocfStep ext e K) (t, d)).1 = t := by
  induction fams with
  | nil =>
    intro d
    rfl
  | cons f fs ih =>
    intro d
    rw [List.foldl_cons,
      show ocfStep ext e K (t, d) f = (t, (ocfStep ext e K (t, d) f).2) from
        Prod.ext (hstep d f) rfl]
    exact ih _

/-- With tau_hat below -0.05 throughout the loop, a Clayton/Gumbel family
fam is only ever mapped to np.inf: every stored binding under the key fam
is none, and once fam has been processed the binding (fam, none) is
present. -/
lemma ocfFold_excluded (ext : Externals) (e : List ℚ) (K : ℕ) (t : ℚ)
    (fam : String) (hf : strLower fam = "clayton" ∨ strLower fam = "gumbel")
    (ht : t < -(5 / 100)) :
    ∀ (fams : List String) (d : List (String × Option ℚ)),
      (∀ v, (fam, v) ∈ d → v = none) →
      ((∀ v, (fam, v) ∈ (fams.foldl (ocfStep ext e K) (t, d)).2 → v = none) ∧
        ((fam ∈ fams ∨ (fam, none) ∈ d) →
          (fam, none) ∈ (fams.foldl (ocfStep ext e K) (t, d)).2)) := by
  intro fams
  induction fams with
  | nil =>
    intro d hd
    refine ⟨hd, ?_⟩
    rintro (h | h)
    · simp at h
    · exact h
  | cons f fs ih =>
    intro d hd
    rw [List.foldl_cons]
    by_cases hffam : f = fam
    · subst hffam
      rw [ocfStep_excluded ext e K (t, d) f hf ht]
      have hd' : ∀ v, (f, v) ∈ dictInsert d f none → v = none := by
        intro v hv
        rcases mem_dictInsert_elim hv with ⟨_, rfl⟩ | hv'
        · rfl
        · exact hd v hv'
      obtain ⟨ih1, ih2⟩ := ih (dictInsert d f none) hd'
      exact ⟨ih1, fun _ => ih2 (Or.inr (mem_dictInsert_self d f none))⟩
    · have hfst : (ocfStep ext e K (t, d) f).1 = t :=
        ocfStep_fst_of_lt ext e K (t, d) f ht
      obtain ⟨w, hw⟩ := ocfStep_snd_shape ext e K (t, d) f
      rw [show ocfStep ext e K (t, d) f = (t, dictInsert d f w) from
        Prod.ext hfst hw]
      have hd' : ∀ v, (fam, v) ∈ dictInsert d f w → v = none := by
        intro v hv
        rcases mem_dictInsert_elim hv with ⟨hk, _⟩ | hv'
        · exact absurd hk.symm hffam
        · exact hd v hv'
      obtain ⟨ih1, ih2⟩ := ih (dictInsert d f w) hd'
      refine ⟨ih1, ?_⟩
      rintro (hmem | hmem)
      · rcases List.mem_cons.mp hmem with heq | hmem'
        · exact absurd heq.symm hffam
        · exact ih2 (Or.inl hmem')
      · exact ih2 (Or.inr (mem_dictInsert_of_ne hmem fun hh => hffam hh.symm))

/-- When every candidate is Clayton/Gumbel and tau_hat < -0.05, every
stored divergence is np.inf. -/
lemma ocfFold_all_none (ext : Externals) (e : List ℚ) (K : ℕ) (t : ℚ)
    (ht : t < -(5 / 100)) :
    ∀ fams : List String,
      (∀ f ∈ fams, strLower f = "clayton" ∨ strLower f = "gumbel") →
      ∀ d, (∀ kv ∈ d, kv.2 = none) →
        ∀ kv ∈ (fams.foldl (ocfStep ext e K) (t, d)).2, kv.2 = none := by
  intro fams
  induction fams with
  | nil =>
    intro _ d hd
    exact hd
  | cons f fs ih =>
    intro hall d hd
    rw [List.foldl_cons,
      ocfStep_excluded ext e K (t, d) f (hall f (List.mem_cons_self _ _)) ht]
    apply ih fun g hg => hall g (List.mem_cons_of_mem _ hg)
    intro kv hkv
    obtain ⟨k0, v0⟩ := kv
    rcases mem_dictInsert_elim hkv with ⟨_, rfl⟩ | hv'
    · rfl
    · exact hd _ hv'

/-- Unfolding of a successful optimalCopulaFamily call: the minimum search
over the iterated dict selected the family, and both the reported
dependency parameter and the reported tau come from the final loop state
tau_hat. -/
lemma optimalCopulaFamily_some_elim (ext : Externals)
    (order : List (String × Option ℚ) → List (String × Option ℚ))
    (X : Mat) (K : ℕ) (fams : List String) (rec0 : PairSig) (rest : List PairSig)
    (g : String) (p t : ℚ)
    (hemp : empirical_copulamnsig ext.pit X K = rec0 :: rest)
    (h : optimalCopulaFamily ext order X K fams = some (g, p, t)) :
    ∃ dd, minSearch (order
        (ocfLoop ext (npEpsSub rec0.esig) K (ext.kendalls_tau X) fams).2)
          = (some g, dd) ∧
      p = ext.invcopulastat g "kendall"
            (ocfLoop ext (npEpsSub rec0.esig) K (ext.kendalls_tau X) fams).1 ∧
      t = (ocfLoop ext (npEpsSub rec0.esig) K (ext.kendalls_tau X) fams).1 := by
  unfold optimalCopulaFamily at h
  rw [hemp] at h
  dsimp only [] at h
  rcases hms : minSearch (order
      (ocfLoop ext (npEpsSub rec0.esig) K (ext.kendalls_tau X) fams).2)
    with ⟨o, dd⟩
  rw [hms] at h
  cases o with
  | none => simp at h
  | some g0 =>
    injection h with h'
    injection h' with hg hrest
    injection hrest with hp ht2
    subst hg
    exact ⟨dd, rfl, hp.symm, ht2.symm⟩

/-- When the minimum search never bound optimalFamily, the call fails
(NameError), returning none. -/
lemma optimalCopulaFamily_none (ext : Externals)
    (order : List (String × Option ℚ) → List (String × Option ℚ))
    (X : Mat) (K : ℕ) (fams : List String) (rec0 : PairSig) (rest : List PairSig)
    (hemp : empirical_copulamnsig ext.pit X K = rec0 :: rest)
    (h : (minSearch (order
        (ocfLoop ext (npEpsSub rec0.esig) K (ext.kendalls_tau X) fams).2)).1
          = none) :
    optimalCopulaFamily ext order X K fams = none := by
  unfold optimalCopulaFamily
  rw [hemp]
  dsimp only []
  rcases hms : minSearch (order
      (ocfLoop ext (npEpsSub rec0.esig) K (ext.kendalls_tau X) fams).2)
    with ⟨o, dd⟩
  rw [hms] at h
  cases o with
  | none => rfl
  | some g0 => simp at h

lemma ocfLoop_eq (ext : Externals) (e : List ℚ) (K : ℕ) (t : ℚ)
    (fams : List String) :
    ocfLoop ext e K t fams = fams.foldl (ocfStep ext e K) (t, []) := rfl

/-- C1 (amended): the Clayton/Gumbel boundary clamp mutates the shared
tau_hat.  With the first candidate a Clayton or Gumbel and
-0.05 <= tauHat < 0, the loop state tau_hat becomes 0 and stays 0, so
every later candidate is evaluated at the clamped value, and whenever the
selector returns at all, the returned tau is 0 (not the original) and the
final parameter inversion is performed at 0. -/
theorem clamp_mutates_shared_tau (ext : Externals)
    (order : List (String × Option ℚ) → List (String × Option ℚ))
    (X : Mat) (K : ℕ) (fam : String) (rest : List String)
    (hf : strLower fam = "clayton" ∨ strLower fam = "gumbel")
    (h1 : -(5 / 100) ≤ ext.kendalls_tau X) (h2 : ext.kendalls_tau X < 0) :
    (∀ e, (ocfLoop ext e K (ext.kendalls_tau X) (fam :: rest)).1 = 0) ∧
    (∀ g p t, optimalCopulaFamily ext order X K (fam :: rest) = some (g, p, t) →
      t = 0 ∧ p = ext.invcopulastat g "kendall" 0) := by
  have hloop : ∀ e, (ocfLoop ext e K (ext.kendalls_tau X) (fam :: rest)).1 = 0 := by
    intro e
    rw [ocfLoop_eq, List.foldl_cons,
      show ocfStep ext e K (ext.kendalls_tau X, []) fam
          = (0, (ocfStep ext e K (ext.kendalls_tau X, []) fam).2) from
        Prod.ext (ocfStep_clamp ext e K (ext.kendalls_tau X, []) fam hf h1 h2) rfl]
    exact ocfFold_fst_const ext e K 0 rest
      (fun d f => ocfStep_fst_zero ext e K (0, d) f rfl) _
  refine ⟨hloop, ?_⟩
  intro g p t h
  cases hemp : empirical_copulamnsig ext.pit X K with
  | nil =>
    unfold optimalCopulaFamily at h
    rw [hemp] at h
    exact absurd h (by simp)
  | cons rec0 rest' =>
    obtain ⟨dd, _, hp, ht'⟩ :=
      optimalCopulaFamily_some_elim ext order X K (fam :: rest) rec0 rest' g p t hemp h
    rw [hloop (npEpsSub rec0.esig)] at hp ht'
    exact ⟨ht', hp⟩

/-- C4: the selector ends in the error outcome none (the NameError on the
never-bound optimalFamily, a failure distinguishable from any returned
family) both when candidateFamilies is empty and when every candidate is
excluded by the boundary policy, i.e. every recorded divergence is
np.inf; in neither case is a default family returned. -/
theorem selector_error_outcomes (ext : Externals)
    (order : List (String × Option ℚ) → List (String × Option ℚ))
    (hord : ∀ l, (order l).Perm l) (X : Mat) (K : ℕ) (fams : List String) :
    (fams = [] → optimalCopulaFamily ext order X K fams = none) ∧
    ((ext.kendalls_tau X < -(5 / 100) ∧
        ∀ f ∈ fams, strLower f = "clayton" ∨ strLower f = "gumbel") →
      optimalCopulaFamily ext order X K fams = none) := by
  constructor
  · rintro rfl
    cases hemp : empirical_copulamnsig ext.pit X K with
    | nil =>
      unfold optimalCopulaFamily
      rw [hemp]
    | cons rec0 rest =>
      apply optimalCopulaFamily_none ext order X K [] rec0 rest hemp
      have hnil : (ocfLoop ext (npEpsSub rec0.esig) K (ext.kendalls_tau X) []).2
          = ([] : List (String × Option ℚ)) := rfl
      rw [hnil, List.Perm.eq_nil (hord []), minSearch_all_none [] (by simp)]
  · rintro ⟨ht, hall⟩
    cases hemp : empirical_copulamnsig ext.pit X K with
    | nil =>
      unfold optimalCopulaFamily
      rw [hemp]
    | cons rec0 rest =>
      apply optimalCopulaFamily_none ext order X K fams rec0 rest hemp
      have hd := ocfFold_all_none ext (npEpsSub rec0.esig) K (ext.kendalls_tau X)
        ht fams hall [] (by simp)
      rw [ocfLoop_eq]
      rw [minSearch_all_none _ (fun kv hkv => hd kv ((hord _).mem_iff.mp hkv))]

/-- C6: a Clayton or Gumbel candidate whose empirical tau_hat is below
-0.05 is excluded: its loop step only records np.inf, without depending
on the C-volume primitive or the entropy function at all (the theoretical
signature is never built), and whenever the selector returns a family
(which requires some candidate with finite divergence), the returned
family is not the excluded one. -/
theorem excluded_family_never_selected (ext : Externals)
    (order : List (String × Option ℚ) → List (String × Option ℚ))
    (hord : ∀ l, (order l).Perm l) (X : Mat) (K : ℕ)
    (fams : List String) (fam : String) (_hmem : fam ∈ fams)
    (hf : strLower fam = "clayton" ∨ strLower fam = "gumbel")
    (ht : ext.kendalls_tau X < -(5 / 100)) :
    (∀ (ext' : Externals) (e : List ℚ) (st : ℚ × List (String × Option ℚ)),
        st.1 < -(5 / 100) →
          ocfStep ext' e K st fam = (st.1, dictInsert st.2 fam none)) ∧
    (∀ g p t, optimalCopulaFamily ext order X K fams = some (g, p, t) →
      g ≠ fam) := by
  refine ⟨fun ext' e st hst => ocfStep_excluded ext' e K st fam hf hst, ?_⟩
  intro g p t h
  cases hemp : empirical_copulamnsig ext.pit X K with
  | nil =>
    unfold optimalCopulaFamily at h
    rw [hemp] at h
    exact absurd h (by simp)
  | cons rec0 rest =>
    obtain ⟨dd, hms, _, _⟩ :=
      optimalCopulaFamily_some_elim ext order X K fams rec0 rest g p t hemp h
    obtain ⟨d, _, hgmem, _⟩ := minSearch_some hms
    have hgdist : (g, some d) ∈
        (ocfLoop ext (npEpsSub rec0.esig) K (ext.kendalls_tau X) fams).2 :=
      (hord _).mem_iff.mp hgmem
    have hinv := (ocfFold_excluded ext (npEpsSub rec0.esig) K
      (ext.kendalls_tau X) fam hf ht fams [] (by simp)).1
    intro hEq
    rw [ocfLoop_eq] at hgdist
    have := hinv (some d) (hEq ▸ hgdist)
    simp at this

/-- C7 (amended): whenever the selector returns a family at all, the
returned family carries a finite recorded divergence that is minimal
among every recorded candidate divergence, for every iteration order of
the distances dict.  What fails in the claim is the tie-break: a tie is
won by the first minimal entry in the dict iteration order, which is
unrelated to the caller-supplied candidateFamilies order (see the
counterexample). -/
theorem selector_returns_minimal_divergence (ext : Externals)
    (order : List (String × Option ℚ) → List (String × Option ℚ))
    (hord : ∀ l, (order l).Perm l) (X : Mat) (K : ℕ) (fams : List String)
    (rec0 : PairSig) (rest : List PairSig) (g : String) (p t : ℚ)
    (hemp : empirical_copulamnsig ext.pit X K = rec0 :: rest)
    (h : optimalCopulaFamily ext order X K fams = some (g, p, t)) :
    ∃ d : ℚ,
      (g, some d) ∈ (ocfLoop ext (npEpsSub rec0.esig) K
        (ext.kendalls_tau X) fams).2 ∧
      ∀ fd ∈ (ocfLoop ext (npEpsSub rec0.esig) K
          (ext.kendalls_tau X) fams).2,
        ltInf fd.2 (some d) = false := by
  obtain ⟨dd, hms, _, _⟩ :=
    optimalCopulaFamily_some_elim ext order X K fams rec0 rest g p t hemp h
  obtain ⟨d, _, hgmem, hmin⟩ := minSearch_some hms
  exact ⟨d, (hord _).mem_iff.mp hgmem,
    fun fd hfd => hmin fd ((hord _).mem_iff.mpr hfd)⟩

/-- Evaluation of the loop step for a family without the boundary
restriction (neither Clayton nor Gumbel). -/
lemma ocfStep_other (ext : Externals) (e : List ℚ) (K : ℕ)
    (st : ℚ × List (String × Option ℚ)) (f : String)
    (h1 : ¬strLower f = "clayton") (h2 : ¬strLower f = "gumbel") :
    ocfStep ext e K st f = (st.1, dictInsert st.2 f
      (some (ext.entropy (listEpsSub (copulamnsig ext.cvol f K "kendall" st.1)) e))) := by
  simp [ocfStep, h1, h2]

/-- Evaluation of a clamping loop step: the family is evaluated at the
clamped value 0 and the loop state tau becomes 0. -/
lemma ocfStep_clamp_eval (ext : Externals) (e : List ℚ) (K : ℕ)
    (st : ℚ × List (String × Option ℚ)) (f : String)
    (hf : strLower f = "clayton" ∨ strLower f = "gumbel")
    (h1 : -(5 / 100) ≤ st.1) (h2 : st.1 < 0) :
    ocfStep ext e K st f = (0, dictInsert st.2 f
      (some (ext.entropy (listEpsSub (copulamnsig ext.cvol f K "kendall" 0)) e))) := by
  rcases hf with hf | hf <;>
    simp [ocfStep, hf, h1, h2, not_lt.mpr h1,
      if_neg (by linarith : ¬st.1 < -(5 / 100))]

lemma tie_loop_eval :
    ocfLoop (extOfTau (1 / 4) 1) [1] 1
        ((extOfTau (1 / 4) 1).kendalls_tau [[1 / 2, 1 / 2]])
        ["Gaussian", "Frank"]
      = (1 / 4, [("Gaussian", some 1), ("Frank", some 1)]) := by
  rw [ocfLoop_eq, List.foldl_cons,
    ocfStep_other _ _ _ _ _ (by decide) (by decide), List.foldl_cons,
    ocfStep_other _ _ _ _ _ (by decide) (by decide), List.foldl_nil]
  norm_num [extOfTau, copulamnsig_cvolOne, dictInsert, listEpsSub,
    show ("Gaussian" : String) ≠ "Frank" from by decide]

lemma tie_min_eval :
    minSearch [("Frank", some (1 : ℚ)), ("Gaussian", some 1)]
      = (some "Frank", some 1) := by
  unfold minSearch
  rw [List.foldl_cons, List.foldl_cons, List.foldl_nil]
  norm_num [minStep, ltInf]

/-- C7 counterexample: two candidates, Gaussian first in the caller
order, with tied recorded divergences (both 1).  Under an admissible
iteration order of the distances dict (here the reversal of insertion
order; a Python 2 dict iterates in hash order, unrelated to caller
order), the selector returns Frank, not the earliest-in-candidateFamilies
Gaussian the claim promises. -/
theorem tie_broken_by_dict_order :
    optimalCopulaFamily (extOfTau (1 / 4) 1) List.reverse [[1 / 2, 1 / 2]] 1
        ["Gaussian", "Frank"] = some ("Frank", 1 / 4, 1 / 4) ∧
    ocfLoop (extOfTau (1 / 4) 1) [1] 1
        ((extOfTau (1 / 4) 1).kendalls_tau [[1 / 2, 1 / 2]])
        ["Gaussian", "Frank"]
      = (1 / 4, [("Gaussian", some 1), ("Frank", some 1)]) ∧
    (∀ l : List (String × Option ℚ), l.reverse.Perm l) ∧
    ("Frank" : String) ≠ "Gaussian" := by
  refine ⟨?_, tie_loop_eval, fun l => List.reverse_perm l, by decide⟩
  unfold optimalCopulaFamily
  rw [show (extOfTau (1 / 4) 1).pit = id from rfl, empirical_unit]
  dsimp only []
  rw [npEpsSub_one, tie_loop_eval]
  dsimp only []
  rw [show List.reverse [("Gaussian", some (1 : ℚ)), ("Frank", some 1)]
      = [("Frank", some 1), ("Gaussian", some 1)] from rfl, tie_min_eval]
  norm_num [extOfTau]

lemma clamp_loop_eval :
    ocfLoop (extOfTau (-(3 / 100)) 0) [1] 1
        ((extOfTau (-(3 / 100)) 0).kendalls_tau [[1 / 2, 1 / 2]])
        ["Clayton", "Gaussian"]
      = (0, [("Clayton", some 0), ("Gaussian", some 0)]) := by
  rw [ocfLoop_eq, List.foldl_cons,
    ocfStep_clamp_eval _ _ _ _ _ (Or.inl (by decide)) (by norm_num [extOfTau])
      (by norm_num [extOfTau]),
    List.foldl_cons, ocfStep_other _ _ _ _ _ (by decide) (by decide),
    List.foldl_nil]
  norm_num [extOfTau, copulamnsig_cvolOne, dictInsert, listEpsSub,
    show ("Clayton" : String) ≠ "Gaussian" from by decide]

lemma clamp_min_eval :
    minSearch [("Clayton", some (0 : ℚ)), ("Gaussian", some 0)]
      = (some "Clayton", some 0) := by
  unfold minSearch
  rw [List.foldl_cons, List.foldl_cons, List.foldl_nil]
  norm_num [minStep, ltInf]

/-- C1 counterexample: the empirical Kendall tau is -0.03, the first
candidate Clayton triggers the clamp, and the returned tau in the result
triple is the clamped 0, not the original -0.03 (Gaussian, processed
after Clayton, is likewise evaluated at 0, as the recorded loop state
shows). -/
theorem clamped_tau_returned :
    optimalCopulaFamily (extOfTau (-(3 / 100)) 0) id [[1 / 2, 1 / 2]] 1
        ["Clayton", "Gaussian"] = some ("Clayton", 0, 0) ∧
    (extOfTau (-(3 / 100)) 0).kendalls_tau [[1 / 2, 1 / 2]] = -(3 / 100) ∧
    ((0 : ℚ) ≠ -(3 / 100)) := by
  refine ⟨?_, rfl, by norm_num⟩
  unfold optimalCopulaFamily
  rw [show (extOfTau (-(3 / 100)) 0).pit = id from rfl, empirical_unit]
  dsimp only []
  rw [npEpsSub_one, clamp_loop_eval]
  dsimp only [id_eq]
  rw [clamp_min_eval]
  norm_num [extOfTau]

lemma single_loop_eval :
    ocfLoop (extOfTau (1 / 4) 1) [1] 1
        ((extOfTau (1 / 4) 1).kendalls_tau [[1 / 2, 1 / 2]]) ["Gaussian"]
      = (1 / 4, [("Gaussian", some 1)]) := by
  rw [ocfLoop_eq, List.foldl_cons,
    ocfStep_other _ _ _ _ _ (by decide) (by decide), List.foldl_nil]
  norm_num [extOfTau, copulamnsig_cvolOne, dictInsert, listEpsSub]

lemma single_run :
    optimalCopulaFamily (extOfTau (1 / 4) 1) id [[1 / 2, 1 / 2]] 1 ["Gaussian"]
      = some ("Gaussian", 1 / 4, 1 / 4) := by
  unfold optimalCopulaFamily
  rw [show (extOfTau (1 / 4) 1).pit = id from rfl, empirical_unit]
  dsimp only []
  rw [npEpsSub_one, single_loop_eval]
  dsimp only [id_eq]
  rw [show minSearch [("Gaussian", some (1 : ℚ))] = (some "Gaussian", some 1) from by
    unfold minSearch
    rw [List.foldl_cons, List.foldl_nil]
    norm_num [minStep, ltInf]]
  norm_num [extOfTau]

/-- C7 witness: the amended arg-min statement at a concrete one-family
run. -/
theorem selector_returns_minimal_divergence_witness :
    ∃ d : ℚ,
      ("Gaussian", some d) ∈ (ocfLoop (extOfTau (1 / 4) 1) (npEpsSub [1]) 1
        ((extOfTau (1 / 4) 1).kendalls_tau [[1 / 2, 1 / 2]]) ["Gaussian"]).2 ∧
      ∀ fd ∈ (ocfLoop (extOfTau (1 / 4) 1) (npEpsSub [1]) 1
          ((extOfTau (1 / 4) 1).kendalls_tau [[1 / 2, 1 / 2]]) ["Gaussian"]).2,
        ltInf fd.2 (some d) = false :=
  selector_returns_minimal_divergence (extOfTau (1 / 4) 1) id
    (fun l => List.Perm.refl l) [[1 / 2, 1 / 2]] 1 ["Gaussian"]
    { rv1 := 1, rv2 := 2, esig := [1] } [] "Gaussian" (1 / 4) (1 / 4)
    empirical_unit single_run

/-- C1 witness: the amended mutation statement at the concrete clamp
scenario (the loop state tau ends at 0). -/
theorem clamp_mutates_shared_tau_witness :
    (ocfLoop (extOfTau (-(3 / 100)) 0) [1] 1
      ((extOfTau (-(3 / 100)) 0).kendalls_tau [[1 / 2, 1 / 2]])
      ("Clayton" :: ["Gaussian"])).1 = 0 :=
  (clamp_mutates_shared_tau (extOfTau (-(3 / 100)) 0) id [[1 / 2, 1 / 2]] 1
    "Clayton" ["Gaussian"] (Or.inl (by decide)) (by norm_num [extOfTau])
    (by norm_num [extOfTau])).1 [1]

/-- C4 witness: the all-excluded outcome at a concrete run (both
candidates Clayton/Gumbel, tau = -0.5). -/
theorem selector_error_outcomes_witness :
    optimalCopulaFamily (extOfTau (-(1 / 2)) 0) id [[1 / 2, 1 / 2]] 1
      ["Clayton", "Gumbel"] = none :=
  (selector_error_outcomes (extOfTau (-(1 / 2)) 0) id (fun l => List.Perm.refl l)
    [[1 / 2, 1 / 2]] 1 ["Clayton", "Gumbel"]).2
    ⟨by norm_num [extOfTau], by
      intro f hf
      simp only [List.mem_cons, List.mem_singleton] at hf
      rcases hf with rfl | rfl | hf
      · exact Or.inl (by decide)
      · exact Or.inr (by decide)
      · simp at hf⟩

/-- C6 witness: the exclusion step at a concrete state (tau = -0.5,
Clayton): np.inf is recorded and tau is untouched. -/
theorem excluded_family_never_selected_witness :
    ocfStep (extOfTau (-(1 / 2)) 0) [] 1 (-(1 / 2), []) "Clayton"
      = (-(1 / 2), [("Clayton", none)]) :=
  (excluded_family_never_selected (extOfTau (-(1 / 2)) 0) id
    (fun l => List.Perm.refl l) [[1 / 2, 1 / 2]] 1 ["Clayton", "Gaussian"]
    "Clayton" (by simp) (Or.inl (by decide)) (by norm_num [extOfTau])).1
    (extOfTau (-(1 / 2)) 0) [] (-(1 / 2), []) (by norm_num)

end Copulapy
